import Mathlib

/-!
Verification of the worker-thread-pool core of the shirry-webserver repository
(src/multithreaded/src/thread_pool.rs, src/multithreaded/src/worker.rs,
src/multithreaded/src/lib.rs), as a shallow embedding in Lean 4.

The embedding models:
 - `Worker` (an id plus an optional thread handle slot),
 - `ThreadPool` (a list of workers plus an optional sender handle),
 - `ThreadPool.new`, `ThreadPool.execute`, the `Drop` implementation,
 - the worker thread's loop, as a trace of lock/receive/execute events, and
 - the whole pool as a small-step interleaving transition system
   (`step` / `run`) over a state holding the FIFO job queue, the
   closed flag of the channel, each worker's status and a shared counter
   incremented by every executed job.
Rust panics are modelled as `none` / a `panicked` outcome.
-/

namespace ShirryPool

/-- A handle to a worker's OS thread (`thread::JoinHandle<()>`), identified in
the model by the id of the worker whose thread it is. -/
structure ThreadHandle where
  workerId : Nat
deriving DecidableEq

/-- `Worker` from worker.rs: an immutable `id` plus an `Option`al thread
handle slot (`thread: Option<JoinHandle<()>>`). -/
structure Worker where
  id : Nat
  thread : Option ThreadHandle
deriving DecidableEq

/-- `Worker::new(id, receiver)` (worker.rs:51-74): spawns the worker thread
immediately (eager start) and stores the live handle in the `thread` slot. -/
def Worker.new (id : Nat) : Worker :=
  { id := id, thread := some { workerId := id } }

/-- `Worker::get_id` (worker.rs:100-102): returns `self.id`. -/
def Worker.get_id (w : Worker) : Nat :=
  w.id

/-- `Worker::take_thread` (worker.rs:138-140), `self.thread.take().unwrap()`:
returns the handle currently in the slot (emptying it) paired with the
updated worker; a `none` first component models the `unwrap` panic that
occurs when the slot is already empty (the handle was already taken). -/
def Worker.take_thread (w : Worker) : Option ThreadHandle × Worker :=
  (w.thread, { w with thread := none })

/-- `ThreadPool` from thread_pool.rs: an ordered vector of workers plus an
`Option`al sending handle. -/
structure ThreadPool where
  workers : List Worker
  sender : Option Unit
deriving DecidableEq

/-- `ThreadPool::new(size)` (thread_pool.rs:18-37): `assert!(size > 0)` panics
on size 0 (modelled as `none`); otherwise builds workers with ids
`0..size` in order and stores the sender. -/
def ThreadPool.new (size : Nat) : Option ThreadPool :=
  if 0 < size then
    some { workers := (List.range size).map Worker.new, sender := some () }
  else
    none

/-- Outcome of a call to `ThreadPool::execute`. -/
inductive SendOutcome
  | sent
  | panicked
deriving DecidableEq

/-- `ThreadPool::execute` (thread_pool.rs:43-50):
`self.sender.as_ref().unwrap().send(job).unwrap()`.
If the sender slot is populated, `send` pushes the job onto the channel's
unbounded FIFO queue and succeeds (the receiver is kept alive by the worker
threads' `Arc`, so the inner `unwrap` on `send` never fires while the sender
exists); if the sender slot is `None` (shutdown has begun), the outer
`unwrap` panics — modelled as the `panicked` outcome with the queue
unchanged. -/
def ThreadPool.execute (p : ThreadPool) (queue : List Nat) (jobId : Nat) :
    SendOutcome × List Nat :=
  match p.sender with
  | some _ => (SendOutcome.sent, queue ++ [jobId])
  | none => (SendOutcome.panicked, queue)

/-- An observable step of `ThreadPool`'s `Drop` implementation. -/
inductive DropEvent
  | dropSender
  | joinWorker (id : Nat)
deriving DecidableEq

/-- The `for worker in self.workers.drain(..)` loop of `Drop`
(thread_pool.rs:98-102): for each worker in order, take its thread handle
and join it (the `joinWorker` event is emitted when that join returns).
An empty handle slot would make `take_thread().join()` panic, aborting the
loop — modelled by stopping the event list there. -/
def joinWorkers : List Worker → List DropEvent
  | [] => []
  | w :: ws =>
    match (Worker.take_thread w).1 with
    | some h => DropEvent.joinWorker h.workerId :: joinWorkers ws
    | none => []

/-- `impl Drop for ThreadPool` (thread_pool.rs:90-103): first
`drop(self.sender.take())`, then join every worker in construction order.
Returns the ordered trace of observable events together with the pool as
`drop` leaves it (sender slot emptied, workers drained). -/
def ThreadPool.drop (p : ThreadPool) : List DropEvent × ThreadPool :=
  (DropEvent.dropSender :: joinWorkers p.workers,
   { workers := [], sender := none })

end ShirryPool

namespace ShirryPool

/-- Claim C5: pool construction with size 0 always fails (panics), and for
every k ≥ 1 construction succeeds and yields a pool owning exactly k
workers, each of whose thread slots holds a live (already spawned) thread
handle when construction returns. -/
theorem pool_new_size_spec (k : Nat) (hk : 1 ≤ k) :
    ThreadPool.new 0 = none ∧
    ∃ p, ThreadPool.new k = some p ∧ p.workers.length = k ∧
      ∀ w ∈ p.workers, w.thread.isSome = true := by
  refine ⟨rfl, ?_⟩
  refine ⟨{ workers := (List.range k).map Worker.new, sender := some () }, ?_, ?_, ?_⟩
  · simp [ThreadPool.new, Nat.lt_of_lt_of_le Nat.zero_lt_one hk]
  · simp
  · intro w hw
    simp only [List.mem_map] at hw
    obtain ⟨i, _, hi⟩ := hw
    subst hi
    rfl

/-- Witness for C5 at k = 3. -/
theorem pool_new_size_spec_witness :
    1 ≤ 3 ∧
    (ThreadPool.new 0 = none ∧
     ∃ p, ThreadPool.new 3 = some p ∧ p.workers.length = 3 ∧
       ∀ w ∈ p.workers, w.thread.isSome = true) :=
  ⟨by decide, pool_new_size_spec 3 (by decide)⟩

/-- Claim C7: for every worker, the first call to `take_thread` transfers
ownership of the join handle (returns it), and a second call on the
resulting worker fails (the `unwrap` panic on the emptied slot, modelled
as `none`): the handle can be taken at most once. -/
theorem take_thread_at_most_once (i : Nat) :
    ((Worker.new i).take_thread).1 = some { workerId := i } ∧
    ((((Worker.new i).take_thread).2).take_thread).1 = none :=
  ⟨rfl, rfl⟩

/-- Claim C9: the id accessor of a worker constructed with id i returns
exactly i; being a plain function of the worker value (returning no updated
worker), it modifies no part of the worker's state. -/
theorem get_id_is_pure_accessor (i : Nat) :
    (Worker.new i).get_id = i ∧ ∀ w : Worker, w.get_id = w.id :=
  ⟨rfl, fun _ => rfl⟩

/-- Claim C10: for every size k ≥ 1, the pool built by `ThreadPool.new k`
holds its workers in a vector whose element at each position j < k has id
exactly j: ids are consecutive, zero-based, and match construction order. -/
theorem worker_ids_match_positions (k j : Nat) (hk : 1 ≤ k) (hj : j < k)
    (p : ThreadPool) (hp : ThreadPool.new k = some p) :
    ∃ w, p.workers.get? j = some w ∧ w.id = j := by
  have hpos : 0 < k := Nat.lt_of_lt_of_le Nat.zero_lt_one hk
  simp only [ThreadPool.new, if_pos hpos, Option.some.injEq] at hp
  subst hp
  refine ⟨Worker.new j, ?_, rfl⟩
  simp [List.get?_eq_getElem?, hj]

/-- Witness for C10 at k = 4, j = 2. -/
theorem worker_ids_match_positions_witness :
    1 ≤ 4 ∧ 2 < 4 ∧
    ∃ w, (({ workers := (List.range 4).map Worker.new,
             sender := some () } : ThreadPool)).workers.get? 2 = some w ∧
         w.id = 2 :=
  ⟨by decide, by decide,
    worker_ids_match_positions 4 2 (by decide) (by decide)
      { workers := (List.range 4).map Worker.new, sender := some () }
      (by decide)⟩

/-- Joining freshly constructed workers (whose handle slots are all
populated) emits one `joinWorker` event per worker, in list order. -/
lemma joinWorkers_map_new (ids : List Nat) :
    joinWorkers (ids.map Worker.new) = ids.map DropEvent.joinWorker := by
  induction ids with
  | nil => rfl
  | cons i rest ih =>
    simp [joinWorkers, Worker.take_thread, Worker.new, ih]

/-- Claim C2: on a pool built by `new k`, `Drop` first relinquishes the
sending handle, then joins each worker's thread in construction order
(ids 0..k-1), and its event trace contains a completed join for every
worker — it returns only after every worker's thread has exited. -/
theorem drop_shutdown_order (k : Nat) (hk : 1 ≤ k)
    (p : ThreadPool) (hp : ThreadPool.new k = some p) :
    (p.drop).1 =
      DropEvent.dropSender :: (List.range k).map DropEvent.joinWorker ∧
    (∀ i, i < k → DropEvent.joinWorker i ∈ (p.drop).1) ∧
    (p.drop).2.sender = none := by
  have hpos : 0 < k := Nat.lt_of_lt_of_le Nat.zero_lt_one hk
  simp only [ThreadPool.new, if_pos hpos, Option.some.injEq] at hp
  subst hp
  have htrace :
      (ThreadPool.drop
        { workers := (List.range k).map Worker.new, sender := some () }).1 =
      DropEvent.dropSender :: (List.range k).map DropEvent.joinWorker := by
    simp [ThreadPool.drop, joinWorkers_map_new]
  refine ⟨htrace, ?_, rfl⟩
  intro i hi
  rw [htrace]
  exact List.mem_cons_of_mem _ (List.mem_map_of_mem _ (List.mem_range.mpr hi))

/-- Witness for C2 at k = 2. -/
theorem drop_shutdown_order_witness :
    1 ≤ 2 ∧
    ((({ workers := (List.range 2).map Worker.new,
         sender := some () } : ThreadPool)).drop).1 =
      DropEvent.dropSender :: (List.range 2).map DropEvent.joinWorker :=
  ⟨by decide,
    (drop_shutdown_order 2 (by decide)
      { workers := (List.range 2).map Worker.new, sender := some () }
      (by decide)).1⟩

/-- Claim C4, settled against the source: after shutdown has begun (the
sender slot has been emptied by `Drop`), a call to `execute` hits
`self.sender.as_ref().unwrap()` on `None` and panics — it does not return
a recoverable `QueueClosed` error to the caller. Before shutdown it always
succeeds immediately, appending the job to the queue whatever the queue
depth. The spec's §9 open question records this very unwrap as a defect:
the claim describes the intended behavior, the code panics instead. -/
theorem execute_after_drop_panics (k : Nat) (hk : 1 ≤ k)
    (p : ThreadPool) (hp : ThreadPool.new k = some p)
    (q : List Nat) (j : Nat) :
    (ThreadPool.execute ((p.drop).2) q j).1 = SendOutcome.panicked ∧
    ThreadPool.execute p q j = (SendOutcome.sent, q ++ [j]) := by
  have hpos : 0 < k := Nat.lt_of_lt_of_le Nat.zero_lt_one hk
  simp only [ThreadPool.new, if_pos hpos, Option.some.injEq] at hp
  subst hp
  exact ⟨rfl, rfl⟩

/-- Witness for C4 at k = 1 with a one-element queue. -/
theorem execute_after_drop_panics_witness :
    1 ≤ 1 ∧
    (ThreadPool.execute
      ((({ workers := (List.range 1).map Worker.new,
           sender := some () } : ThreadPool)).drop).2 [5] 9).1 =
      SendOutcome.panicked :=
  ⟨by decide,
    (execute_after_drop_panics 1 (by decide)
      { workers := (List.range 1).map Worker.new, sender := some () }
      (by decide) [5] 9).1⟩

/-- An observable event of the worker thread's loop (worker.rs:52-68). -/
inductive WEvent
  | lockAcquire
  | recvOk (jobId : Nat)
  | recvErr
  | lockRelease
  | execJob (jobId : Nat)
  | exitLoop
deriving DecidableEq

/-- Event trace of one worker's loop, as a function of the list of jobs the
worker will dequeue before `recv` reports the channel closed. Models
worker.rs:53-67: each iteration runs
`let message = receiver.lock().unwrap().recv();` — the lock is acquired,
one blocking receive is performed, and the temporary `MutexGuard` is
dropped at the end of that statement, releasing the lock — and only then
does the `match` either run the job (`Ok`) or break out of the loop
(`Err`, channel closed). -/
def workerLoop : List Nat → List WEvent
  | [] =>
    [WEvent.lockAcquire, WEvent.recvErr, WEvent.lockRelease, WEvent.exitLoop]
  | j :: rest =>
    WEvent.lockAcquire :: WEvent.recvOk j :: WEvent.lockRelease ::
      WEvent.execJob j :: workerLoop rest

/-- Tests whether an event is a lock acquisition. -/
def isAcquire : WEvent → Bool
  | WEvent.lockAcquire => true
  | _ => false

/-- Tests whether an event is a lock release. -/
def isRelease : WEvent → Bool
  | WEvent.lockRelease => true
  | _ => false

/-- Number of lock acquisitions in an event list. -/
def numAcquire (es : List WEvent) : Nat :=
  es.countP isAcquire

/-- Number of lock releases in an event list. -/
def numRelease (es : List WEvent) : Nat :=
  es.countP isRelease

/-- Claim C3: at every point of the worker loop's trace where a job body
starts executing, every lock acquisition has already been matched by a
release (the lock is not held while the job runs), while at every receive
the lock is held (exactly one unmatched acquisition): the lock is held
only for the duration of the single blocking receive and is released
before the dequeued job executes. -/
theorem lock_released_before_job_runs (q : List Nat) (i : Nat) :
    (∀ j, (workerLoop q).get? i = some (WEvent.execJob j) →
      numAcquire ((workerLoop q).take i) = numRelease ((workerLoop q).take i)) ∧
    (∀ j, (workerLoop q).get? i = some (WEvent.recvOk j) →
      numAcquire ((workerLoop q).take i) =
        numRelease ((workerLoop q).take i) + 1) ∧
    ((workerLoop q).get? i = some WEvent.recvErr →
      numAcquire ((workerLoop q).take i) =
        numRelease ((workerLoop q).take i) + 1) := by
  induction q generalizing i with
  | nil =>
    refine ⟨fun j hj => ?_, fun j hj => ?_, fun hj => ?_⟩
    · match i with
      | 0 | 1 | 2 | 3 | n + 4 => simp [workerLoop] at hj
    · match i with
      | 0 | 1 | 2 | 3 | n + 4 => simp [workerLoop] at hj
    · match i with
      | 1 => decide
      | 0 | 2 | 3 | n + 4 => simp [workerLoop] at hj
  | cons j0 rest ih =>
    match i with
    | 0 =>
      refine ⟨fun j hj => ?_, fun j hj => ?_, fun hj => ?_⟩ <;>
        simp [workerLoop] at hj
    | 1 =>
      refine ⟨fun j hj => ?_, fun j hj => ?_, fun hj => ?_⟩
      · simp [workerLoop] at hj
      · simp [workerLoop, numAcquire, numRelease, isAcquire, isRelease,
          List.countP_cons]
      · simp [workerLoop] at hj
    | 2 =>
      refine ⟨fun j hj => ?_, fun j hj => ?_, fun hj => ?_⟩ <;>
        simp [workerLoop] at hj
    | 3 =>
      refine ⟨fun j hj => ?_, fun j hj => ?_, fun hj => ?_⟩
      · simp [workerLoop, numAcquire, numRelease, isAcquire, isRelease,
          List.countP_cons]
      · simp [workerLoop] at hj
      · simp [workerLoop] at hj
    | n + 4 =>
      have hget : (workerLoop (j0 :: rest)).get? (n + 4) =
          (workerLoop rest).get? n := by
        simp [workerLoop]
      have htake : (workerLoop (j0 :: rest)).take (n + 4) =
          WEvent.lockAcquire :: WEvent.recvOk j0 :: WEvent.lockRelease ::
            WEvent.execJob j0 :: (workerLoop rest).take n := by
        simp [workerLoop]
      have hA : numAcquire ((workerLoop (j0 :: rest)).take (n + 4)) =
          numAcquire ((workerLoop rest).take n) + 1 := by
        rw [htake]
        simp [numAcquire, isAcquire, List.countP_cons]
      have hR : numRelease ((workerLoop (j0 :: rest)).take (n + 4)) =
          numRelease ((workerLoop rest).take n) + 1 := by
        rw [htake]
        simp [numRelease, isRelease, List.countP_cons]
      obtain ⟨ih1, ih2, ih3⟩ := ih n
      refine ⟨?_, ?_, ?_⟩
      · intro j hj
        rw [hget] at hj
        rw [hA, hR, ih1 j hj]
      · intro j hj
        rw [hget] at hj
        rw [hA, hR, ih2 j hj]
      · intro hj
        rw [hget] at hj
        rw [hA, hR, ih3 hj]

/-- Witness for C3 on the one-job trace, at the job-execution event. -/
theorem lock_released_before_job_runs_witness :
    (workerLoop [7]).get? 3 = some (WEvent.execJob 7) ∧
    numAcquire ((workerLoop [7]).take 3) =
      numRelease ((workerLoop [7]).take 3) :=
  ⟨by decide, (lock_released_before_job_runs [7] 3).1 7 (by decide)⟩

/-- Status of one worker thread in the interleaving semantics: blocked in
or about to call `recv` (`idle`), running a dequeued job (`executing j`),
or exited after `recv` returned the closed-channel indication
(`terminated`). -/
inductive WStatus
  | idle
  | executing (jobId : Nat)
  | terminated
deriving DecidableEq

/-- Global state of the pool system: the channel's FIFO queue of pending
job ids, whether the sending handle has been dropped (`closed`), each
worker's status (indexed by construction order), the shared lock-protected
counter incremented once by every executed job, the number of jobs
submitted so far (job ids are assigned in submission order), and the log
of job ids in dequeue order. -/
structure SysState where
  queue : List Nat
  closed : Bool
  workers : List WStatus
  counter : Nat
  submitted : Nat
  dequeuedLog : List Nat
deriving DecidableEq

/-- A label of one atomic transition of the pool system. -/
inductive Label
  | submit
  | close
  | dequeue (w : Nat)
  | finish (w : Nat)
  | terminate (w : Nat)
deriving DecidableEq

/-- Initial state of a pool of n workers, as left by `ThreadPool::new n`:
empty queue, channel open, every worker idle (blocked in `recv`), counter
zero. -/
def initState (n : Nat) : SysState :=
  { queue := [], closed := false, workers := List.replicate n WStatus.idle,
    counter := 0, submitted := 0, dequeuedLog := [] }

/-- One atomic transition of the pool system; `none` when the label is not
enabled in the given state. `submit` models `execute` appending a job to
the channel (only while the sender exists); `close` models `Drop` dropping
the sender; `dequeue w` models worker w's `recv` returning `Ok(job)` under
the receiver lock (the FIFO hands over its head); `finish w` models
worker w's job body returning after incrementing the shared counter;
`terminate w` models worker w's `recv` returning `Err` — which mpsc
produces exactly when the queue is empty and all senders are dropped —
upon which the worker breaks out of its loop. -/
def step (s : SysState) : Label → Option SysState
  | Label.submit =>
    if s.closed then none
    else some { s with queue := s.queue ++ [s.submitted],
                       submitted := s.submitted + 1 }
  | Label.close =>
    if s.closed then none
    else some { s with closed := true }
  | Label.dequeue w =>
    match s.workers[w]?, s.queue with
    | some WStatus.idle, j :: rest =>
      some { s with queue := rest,
                    workers := s.workers.set w (WStatus.executing j),
                    dequeuedLog := s.dequeuedLog ++ [j] }
    | _, _ => none
  | Label.finish w =>
    match s.workers[w]? with
    | some (WStatus.executing _) =>
      some { s with workers := s.workers.set w WStatus.idle,
                    counter := s.counter + 1 }
    | _ => none
  | Label.terminate w =>
    match s.workers[w]?, s.queue, s.closed with
    | some WStatus.idle, [], true =>
      some { s with workers := s.workers.set w WStatus.terminated }
    | _, _, _ => none

/-- Runs a list of labels from a state; `none` if any label is not
enabled where it occurs. -/
def run (s : SysState) : List Label → Option SysState
  | [] => some s
  | l :: ls =>
    match step s l with
    | some s2 => run s2 ls
    | none => none

/-- Tests whether a worker status is `executing`. -/
def isExecuting : WStatus → Bool
  | WStatus.executing _ => true
  | _ => false

/-- Number of workers currently executing a job. -/
def execCount (ws : List WStatus) : Nat :=
  ws.countP isExecuting

/-- Number of `submit` labels in a trace. -/
def countSubmits (tr : List Label) : Nat :=
  tr.countP fun l => l = Label.submit

/-- Effect of `List.set` at an occupied index on `countP`. -/
lemma countP_set_occupied (p : WStatus → Bool) :
    ∀ (ws : List WStatus) (w : Nat) (a b : WStatus), ws[w]? = some a →
      (ws.set w b).countP p + (if p a then 1 else 0) =
        ws.countP p + (if p b then 1 else 0) := by
  intro ws
  induction ws with
  | nil => intro w a b h; simp at h
  | cons x xs ih =>
    intro w a b h
    cases w with
    | zero =>
      simp only [List.getElem?_cons_zero, Option.some.injEq] at h
      cases h
      simp only [List.set, List.countP_cons]
      omega
    | succ v =>
      simp only [List.getElem?_cons_succ] at h
      have hv := ih v a b h
      simp only [List.set, List.countP_cons]
      omega

/-- The inductive invariant of the pool system for a pool of n workers:
worker count is fixed; every submitted job is in exactly one of the
counter (already executed), the queue, or a worker's hands; a worker can
only have terminated after the channel closed on an empty queue (and then
the queue stays empty); job ids are assigned in submission order, so the
queue always holds a consecutive block of ids and the dequeue log is an
initial segment of the naturals in increasing order. -/
def Inv (n : Nat) (s : SysState) : Prop :=
  s.workers.length = n ∧
  s.counter + s.queue.length + execCount s.workers = s.submitted ∧
  (s.closed = false → WStatus.terminated ∉ s.workers) ∧
  (WStatus.terminated ∈ s.workers → s.queue = []) ∧
  s.submitted = s.dequeuedLog.length + s.queue.length ∧
  s.queue = List.range' s.dequeuedLog.length s.queue.length ∧
  s.dequeuedLog = List.range s.dequeuedLog.length

/-- No worker of a fresh pool is executing. -/
lemma execCount_replicate_idle (n : Nat) :
    execCount (List.replicate n WStatus.idle) = 0 := by
  induction n with
  | zero => rfl
  | succ m ih =>
    simp only [execCount, List.replicate_succ, List.countP_cons] at ih ⊢
    simp [isExecuting, ih]

/-- The invariant holds in the initial state. -/
lemma initState_inv (n : Nat) : Inv n (initState n) := by
  refine ⟨by simp [initState], ?_, ?_, ?_, rfl, rfl, rfl⟩
  · show 0 + 0 + execCount (List.replicate n WStatus.idle) = 0
    simp [execCount_replicate_idle]
  · intro _ hm
    have := List.eq_of_mem_replicate hm
    exact absurd this (by simp)
  · intro hm
    have := List.eq_of_mem_replicate hm
    exact absurd this (by simp)

/-- Every enabled transition preserves the invariant, and only `submit`
increases the submission count (by one). -/
lemma step_inv (n : Nat) (s1 s2 : SysState) (l : Label)
    (h : step s1 l = some s2) (hi : Inv n s1) :
    Inv n s2 ∧ s2.submitted = s1.submitted + countSubmits [l] := by
  obtain ⟨h1, h2, h3, h4, h5, h6, h7⟩ := hi
  cases l with
  | submit =>
    cases hcb : s1.closed with
    | true => simp [step, hcb] at h
    | false =>
      simp only [step, hcb, Bool.false_eq_true, if_neg, ite_false] at h
      cases h
      refine ⟨⟨h1, ?_, ?_, ?_, ?_, ?_, h7⟩, by simp [countSubmits]⟩
      · simp only [List.length_append, List.length_cons, List.length_nil]
        omega
      · exact fun hcf => h3 hcb
      · intro hm
        exact absurd hm (h3 hcb)
      · simp only [List.length_append, List.length_cons, List.length_nil]
        omega
      · show s1.queue ++ [s1.submitted] =
          List.range' s1.dequeuedLog.length (s1.queue ++ [s1.submitted]).length
        have hlen : (s1.queue ++ [s1.submitted]).length = s1.queue.length + 1 := by
          simp
        rw [hlen, List.range'_concat]
        have hid : s1.submitted = s1.dequeuedLog.length + 1 * s1.queue.length := by
          omega
        rw [← h6, ← hid]
  | close =>
    cases hcb : s1.closed with
    | true => simp [step, hcb] at h
    | false =>
      simp only [step, hcb, Bool.false_eq_true, if_neg, ite_false] at h
      cases h
      refine ⟨⟨h1, h2, ?_, h4, h5, h6, h7⟩, by simp [countSubmits]⟩
      intro hcf
      exact absurd hcf (by simp)
  | dequeue v =>
    rcases hw : s1.workers[v]? with _ | st
    · simp [step, hw] at h
    · rcases st with _ | j2 | _
      · rcases hq : s1.queue with _ | ⟨j, rest⟩
        · simp [step, hw, hq] at h
        · simp only [step, hw, hq, Option.some.injEq] at h
          cases h
          have hcount := countP_set_occupied isExecuting s1.workers v
            WStatus.idle (WStatus.executing j) hw
          simp [isExecuting] at hcount
          have hrange : j :: rest =
              List.range' s1.dequeuedLog.length (rest.length + 1) := by
            have h6q := h6
            rw [hq] at h6q
            simpa using h6q
          rw [List.range'_succ] at hrange
          have hj : j = s1.dequeuedLog.length :=
            ((List.cons.injEq _ _ _ _).mp hrange).1
          have hrest : rest = List.range' (s1.dequeuedLog.length + 1) rest.length :=
            ((List.cons.injEq _ _ _ _).mp hrange).2
          have hloglen : (s1.dequeuedLog ++ [j]).length =
              s1.dequeuedLog.length + 1 := by
            simp
          have h2q := h2
          rw [hq] at h2q
          simp only [List.length_cons] at h2q
          have h5q := h5
          rw [hq] at h5q
          simp only [List.length_cons] at h5q
          refine ⟨⟨?_, ?_, ?_, ?_, ?_, ?_, ?_⟩, by simp [countSubmits]⟩
          · simpa using h1
          · show s1.counter + rest.length +
              execCount (s1.workers.set v (WStatus.executing j)) = s1.submitted
            simp only [execCount] at h2q hcount ⊢
            omega
          · intro hcf hm
            rcases List.mem_or_eq_of_mem_set hm with hm2 | heq
            · exact absurd hm2 (h3 hcf)
            · exact absurd heq (by simp)
          · intro hm
            rcases List.mem_or_eq_of_mem_set hm with hm2 | heq
            · have := h4 hm2
              rw [hq] at this
              exact absurd this (by simp)
            · exact absurd heq (by simp)
          · show s1.submitted = (s1.dequeuedLog ++ [j]).length + rest.length
            rw [hloglen]
            omega
          · show rest = List.range' (s1.dequeuedLog ++ [j]).length rest.length
            rw [hloglen]
            exact hrest
          · show s1.dequeuedLog ++ [j] =
              List.range (s1.dequeuedLog ++ [j]).length
            rw [hloglen, hj, List.range_succ, ← h7]
      · simp [step, hw] at h
      · simp [step, hw] at h
  | finish v =>
    rcases hw : s1.workers[v]? with _ | st
    · simp [step, hw] at h
    · rcases st with _ | j | _
      · simp [step, hw] at h
      · simp only [step, hw, Option.some.injEq] at h
        cases h
        have hcount := countP_set_occupied isExecuting s1.workers v
          (WStatus.executing j) WStatus.idle hw
        simp [isExecuting] at hcount
        refine ⟨⟨?_, ?_, ?_, ?_, h5, h6, h7⟩, by simp [countSubmits]⟩
        · simpa using h1
        · show s1.counter + 1 + s1.queue.length +
            execCount (s1.workers.set v WStatus.idle) = s1.submitted
          have h2e := h2
          simp only [execCount] at h2e hcount ⊢
          omega
        · intro hcf hm
          rcases List.mem_or_eq_of_mem_set hm with hm2 | heq
          · exact absurd hm2 (h3 hcf)
          · exact absurd heq (by simp)
        · intro hm
          rcases List.mem_or_eq_of_mem_set hm with hm2 | heq
          · exact h4 hm2
          · exact absurd heq (by simp)
      · simp [step, hw] at h
  | terminate v =>
    rcases hw : s1.workers[v]? with _ | st
    · simp [step, hw] at h
    · rcases st with _ | j | _
      · rcases hq : s1.queue with _ | ⟨j, rest⟩
        · cases hcb : s1.closed with
          | false => simp [step, hw, hq, hcb] at h
          | true =>
            simp only [step, hw, hq, hcb, Option.some.injEq] at h
            cases h
            have hcount := countP_set_occupied isExecuting s1.workers v
              WStatus.idle WStatus.terminated hw
            simp [isExecuting] at hcount
            refine ⟨⟨?_, ?_, ?_, fun _ => rfl, ?_, rfl, h7⟩, by simp [countSubmits]⟩
            · simpa using h1
            · show s1.counter + List.length ([] : List Nat) +
                execCount (s1.workers.set v WStatus.terminated) = s1.submitted
              have h2e := h2
              rw [hq] at h2e
              simp only [execCount, List.length_nil] at h2e hcount ⊢
              omega
            · intro hcf
              exact absurd hcf (by simp)
            · show s1.submitted =
                s1.dequeuedLog.length + List.length ([] : List Nat)
              have h5q := h5
              rw [hq] at h5q
              simpa using h5q
        · simp [step, hw, hq] at h
      · simp [step, hw] at h
      · simp [step, hw] at h

/-- Runs preserve the invariant, and the final submission count is the
initial one plus the number of `submit` labels in the trace. -/
lemma run_inv (n : Nat) : ∀ (tr : List Label) (s1 s2 : SysState),
    run s1 tr = some s2 → Inv n s1 →
    Inv n s2 ∧ s2.submitted = s1.submitted + countSubmits tr := by
  intro tr
  induction tr with
  | nil =>
    intro s1 s2 h hi
    simp only [run, Option.some.injEq] at h
    cases h
    exact ⟨hi, by simp [countSubmits]⟩
  | cons l ls ih =>
    intro s1 s2 h hi
    rcases hstep : step s1 l with _ | sm
    · simp [run, hstep] at h
    · simp only [run, hstep] at h
      obtain ⟨him, hsm⟩ := step_inv n s1 sm l hstep hi
      obtain ⟨hi2, hs2⟩ := ih sm s2 h him
      refine ⟨hi2, ?_⟩
      have hsplit : countSubmits (l :: ls) = countSubmits ls + countSubmits [l] := by
        simp [countSubmits, List.countP_cons]
      omega

/-- Claim C1: for every pool size n ≥ 1 and every interleaved execution of
the pool system that starts from the fresh pool, submits any number M of
counter-incrementing jobs, and ends with the pool shut down (every worker
thread has exited, as `Drop` guarantees by joining them all), the shared
counter equals exactly M: every accepted job was executed exactly once,
none dropped, none run twice. -/
theorem all_submitted_jobs_run_exactly_once (n M : Nat) (hn : 1 ≤ n)
    (tr : List Label) (s : SysState)
    (hrun : run (initState n) tr = some s)
    (hM : countSubmits tr = M)
    (hterm : ∀ st ∈ s.workers, st = WStatus.terminated) :
    s.counter = M := by
  obtain ⟨hinv, hsub⟩ := run_inv n tr (initState n) s hrun (initState_inv n)
  obtain ⟨h1, h2, h3, h4, h5, h6, h7⟩ := hinv
  have hmem : WStatus.terminated ∈ s.workers := by
    cases hws : s.workers with
    | nil =>
      rw [hws] at h1
      simp at h1
      omega
    | cons a l =>
      have ha := hterm a (by rw [hws]; exact List.mem_cons_self a l)
      exact List.mem_cons.mpr (Or.inl ha.symm)
  have hqe : s.queue = [] := h4 hmem
  have hexec : execCount s.workers = 0 := by
    simp only [execCount]
    rw [List.countP_eq_zero]
    intro a ha
    rw [hterm a ha]
    simp [isExecuting]
  rw [hqe] at h2
  simp only [List.length_nil] at h2
  have hsub0 : (initState n).submitted = 0 := rfl
  omega

/-- Witness for C1: one worker, two submitted jobs, full shutdown. -/
theorem all_submitted_jobs_run_exactly_once_witness :
    1 ≤ 1 ∧
    run (initState 1)
      [Label.submit, Label.submit, Label.close, Label.dequeue 0,
       Label.finish 0, Label.dequeue 0, Label.finish 0, Label.terminate 0] =
      some { queue := [], closed := true, workers := [WStatus.terminated],
             counter := 2, submitted := 2, dequeuedLog := [0, 1] } ∧
    countSubmits
      [Label.submit, Label.submit, Label.close, Label.dequeue 0,
       Label.finish 0, Label.dequeue 0, Label.finish 0, Label.terminate 0] = 2 ∧
    ({ queue := [], closed := true, workers := [WStatus.terminated],
       counter := 2, submitted := 2, dequeuedLog := [0, 1] } : SysState).counter
      = 2 :=
  ⟨by decide, by decide, by decide,
    all_submitted_jobs_run_exactly_once 1 2 (by decide)
      [Label.submit, Label.submit, Label.close, Label.dequeue 0,
       Label.finish 0, Label.dequeue 0, Label.finish 0, Label.terminate 0]
      { queue := [], closed := true, workers := [WStatus.terminated],
        counter := 2, submitted := 2, dequeuedLog := [0, 1] }
      (by decide) (by decide) (by decide)⟩

/-- Claim C8: the work channel is FIFO for the single producer: in every
reachable state the queue holds the submitted-but-not-yet-dequeued job ids
as a consecutive block in submission order, and the dequeue log — the job
ids in the order in which workers received them, whichever worker it was —
is exactly 0, 1, 2, ...: job N is dequeued by some worker before job N+1
is dequeued by any worker. The model makes no guarantee about which
physical worker receives which item: witness two runs of the same
submission in a two-worker pool where job 0 is received once by worker 0
and once by worker 1. -/
theorem fifo_single_consumer_order (n : Nat) (tr : List Label) (s : SysState)
    (hrun : run (initState n) tr = some s) :
    s.queue = List.range' s.dequeuedLog.length s.queue.length ∧
    s.dequeuedLog = List.range s.dequeuedLog.length ∧
    (∃ s1 s2,
      run (initState 2) [Label.submit, Label.dequeue 0] = some s1 ∧
      run (initState 2) [Label.submit, Label.dequeue 1] = some s2 ∧
      s1.workers[0]? = some (WStatus.executing 0) ∧
      s2.workers[1]? = some (WStatus.executing 0)) := by
  obtain ⟨hinv, _⟩ := run_inv n tr (initState n) s hrun (initState_inv n)
  obtain ⟨h1, h2, h3, h4, h5, h6, h7⟩ := hinv
  refine ⟨h6, h7,
    { queue := [], closed := false,
      workers := [WStatus.executing 0, WStatus.idle],
      counter := 0, submitted := 1, dequeuedLog := [0] },
    { queue := [], closed := false,
      workers := [WStatus.idle, WStatus.executing 0],
      counter := 0, submitted := 1, dequeuedLog := [0] },
    by decide, by decide, by decide, by decide⟩

/-- Witness for C8: two submits, one dequeue, from a one-worker pool. -/
theorem fifo_single_consumer_order_witness :
    run (initState 1) [Label.submit, Label.submit, Label.dequeue 0] =
      some { queue := [1], closed := false, workers := [WStatus.executing 0],
             counter := 0, submitted := 2, dequeuedLog := [0] } ∧
    ({ queue := [1], closed := false, workers := [WStatus.executing 0],
       counter := 0, submitted := 2, dequeuedLog := [0] } : SysState).dequeuedLog
      = List.range
        ({ queue := [1], closed := false, workers := [WStatus.executing 0],
           counter := 0, submitted := 2,
           dequeuedLog := [0] } : SysState).dequeuedLog.length :=
  ⟨by decide,
    (fifo_single_consumer_order 1
      [Label.submit, Label.submit, Label.dequeue 0]
      { queue := [1], closed := false, workers := [WStatus.executing 0],
        counter := 0, submitted := 2, dequeuedLog := [0] }
      (by decide)).2.1⟩

/-- Claim C6: every transition of the pool system moves each worker only
along the state machine Idle --(job dequeued)--> Executing --(job
returns)--> Idle, Idle --(channel closed)--> Terminated; Terminated is
terminal (no transition leaves it), reaching it requires the channel to be
closed with the queue drained, and in that situation the terminate
transition is enabled and succeeds normally — the closed-channel
indication is handled locally as a graceful exit of the loop, not as an
error. -/
theorem worker_state_machine_graceful_exit (s1 s2 : SysState) (l : Label)
    (w : Nat) (a b : WStatus) (hstep : step s1 l = some s2)
    (ha : s1.workers[w]? = some a) (hb : s2.workers[w]? = some b) :
    (a = WStatus.terminated → b = WStatus.terminated) ∧
    (a = b ∨
      (a = WStatus.idle ∧ l = Label.dequeue w ∧ ∃ j, b = WStatus.executing j) ∨
      ((∃ j, a = WStatus.executing j) ∧ l = Label.finish w ∧ b = WStatus.idle) ∨
      (a = WStatus.idle ∧ l = Label.terminate w ∧ b = WStatus.terminated ∧
        s1.closed = true ∧ s1.queue = [])) ∧
    (a = WStatus.idle → s1.closed = true → s1.queue = [] →
      ∃ s3, step s1 (Label.terminate w) = some s3 ∧
        s3.workers[w]? = some WStatus.terminated) := by
  have hwlt : w < s1.workers.length := by
    rcases List.getElem?_eq_some_iff.mp ha with ⟨hlt, _⟩
    exact hlt
  have henable : a = WStatus.idle → s1.closed = true → s1.queue = [] →
      ∃ s3, step s1 (Label.terminate w) = some s3 ∧
        s3.workers[w]? = some WStatus.terminated := by
    intro haid hcl hq
    have ha2 := ha
    rw [haid] at ha2
    refine ⟨{ s1 with workers := s1.workers.set w WStatus.terminated },
      ?_, ?_⟩
    · simp [step, ha2, hq, hcl]
    · show (s1.workers.set w WStatus.terminated)[w]? = some WStatus.terminated
      rw [List.getElem?_set_self hwlt]
  cases l with
  | submit =>
    cases hcb : s1.closed with
    | true => simp [step, hcb] at hstep
    | false =>
      simp only [step, hcb, Bool.false_eq_true, if_neg, ite_false] at hstep
      cases hstep
      rw [ha] at hb
      injection hb with hab
      exact ⟨fun h => hab ▸ h, Or.inl hab, fun _ hy _ => absurd hy (by simp)⟩
  | close =>
    cases hcb : s1.closed with
    | true => simp [step, hcb] at hstep
    | false =>
      simp only [step, hcb, Bool.false_eq_true, if_neg, ite_false] at hstep
      cases hstep
      rw [ha] at hb
      injection hb with hab
      exact ⟨fun h => hab ▸ h, Or.inl hab, fun _ hy _ => absurd hy (by simp)⟩
  | dequeue v =>
    rcases hw : s1.workers[v]? with _ | st
    · simp [step, hw] at hstep
    · rcases st with _ | j2 | _
      · rcases hq : s1.queue with _ | ⟨j, rest⟩
        · simp [step, hw, hq] at hstep
        · simp only [step, hw, hq, Option.some.injEq] at hstep
          cases hstep
          by_cases hvw : v = w
          · subst hvw
            rw [hw] at ha
            injection ha with haid
            have hb2 : (s1.workers.set v (WStatus.executing j))[v]? =
                some b := hb
            rw [List.getElem?_set_self hwlt] at hb2
            injection hb2 with hbj
            refine ⟨?_, Or.inr (Or.inl ⟨haid.symm, rfl, ⟨j, hbj.symm⟩⟩),
              fun _ _ hz => absurd hz (by simp)⟩
            intro h
            exact absurd (haid.trans h) (by simp)
          · have hb2 : s1.workers[w]? = some b := by
              have := List.getElem?_set_ne (a := WStatus.executing j)
                (l := s1.workers) hvw
              rw [← this]
              exact hb
            rw [ha] at hb2
            injection hb2 with hab
            exact ⟨fun h => hab ▸ h, Or.inl hab, fun _ _ hz => absurd hz (by simp)⟩
      · simp [step, hw] at hstep
      · simp [step, hw] at hstep
  | finish v =>
    rcases hw : s1.workers[v]? with _ | st
    · simp [step, hw] at hstep
    · rcases st with _ | j | _
      · simp [step, hw] at hstep
      · simp only [step, hw, Option.some.injEq] at hstep
        cases hstep
        by_cases hvw : v = w
        · subst hvw
          rw [hw] at ha
          injection ha with haj
          have hb2 : (s1.workers.set v WStatus.idle)[v]? = some b := hb
          rw [List.getElem?_set_self hwlt] at hb2
          injection hb2 with hbi
          refine ⟨?_, Or.inr (Or.inr (Or.inl ⟨⟨j, haj.symm⟩, rfl, hbi.symm⟩)),
            henable⟩
          intro h
          exact absurd (haj.trans h) (by simp)
        · have hb2 : s1.workers[w]? = some b := by
            have := List.getElem?_set_ne (a := WStatus.idle)
              (l := s1.workers) hvw
            rw [← this]
            exact hb
          rw [ha] at hb2
          injection hb2 with hab
          exact ⟨fun h => hab ▸ h, Or.inl hab, henable⟩
      · simp [step, hw] at hstep
  | terminate v =>
    rcases hw : s1.workers[v]? with _ | st
    · simp [step, hw] at hstep
    · rcases st with _ | j | _
      · rcases hq : s1.queue with _ | ⟨j, rest⟩
        · cases hcb : s1.closed with
          | false => simp [step, hw, hq, hcb] at hstep
          | true =>
            simp only [step, hw, hq, hcb, Option.some.injEq] at hstep
            cases hstep
            by_cases hvw : v = w
            · subst hvw
              rw [hw] at ha
              injection ha with haid
              have hb2 : (s1.workers.set v WStatus.terminated)[v]? =
                  some b := hb
              rw [List.getElem?_set_self hwlt] at hb2
              injection hb2 with hbt
              refine ⟨fun _ => hbt.symm,
                Or.inr (Or.inr (Or.inr ⟨haid.symm, rfl, hbt.symm, rfl, rfl⟩)),
                fun hx _ _ => henable hx hcb hq⟩
            · have hb2 : s1.workers[w]? = some b := by
                have := List.getElem?_set_ne (a := WStatus.terminated)
                  (l := s1.workers) hvw
                rw [← this]
                exact hb
              rw [ha] at hb2
              injection hb2 with hab
              exact ⟨fun h => hab ▸ h, Or.inl hab, fun hx _ _ => henable hx hcb hq⟩
        · simp [step, hw, hq] at hstep
      · simp [step, hw] at hstep
      · simp [step, hw] at hstep

/-- Witness for C6: one idle worker, closed channel, empty queue; the
terminate transition fires and the graceful-exit conjunct holds. -/
theorem worker_state_machine_graceful_exit_witness :
    step { queue := [], closed := true, workers := [WStatus.idle],
           counter := 0, submitted := 0, dequeuedLog := [] }
        (Label.terminate 0) =
      some { queue := [], closed := true, workers := [WStatus.terminated],
             counter := 0, submitted := 0, dequeuedLog := [] } ∧
    ({ queue := [], closed := true, workers := [WStatus.idle],
       counter := 0, submitted := 0,
       dequeuedLog := [] } : SysState).workers[0]? = some WStatus.idle ∧
    ({ queue := [], closed := true, workers := [WStatus.terminated],
       counter := 0, submitted := 0,
       dequeuedLog := [] } : SysState).workers[0]? =
      some WStatus.terminated ∧
    (WStatus.idle = WStatus.idle →
      ({ queue := [], closed := true, workers := [WStatus.idle],
         counter := 0, submitted := 0,
         dequeuedLog := [] } : SysState).closed = true →
      ({ queue := [], closed := true, workers := [WStatus.idle],
         counter := 0, submitted := 0,
         dequeuedLog := [] } : SysState).queue = [] →
      ∃ s3, step { queue := [], closed := true, workers := [WStatus.idle],
                   counter := 0, submitted := 0, dequeuedLog := [] }
          (Label.terminate 0) = some s3 ∧
        s3.workers[0]? = some WStatus.terminated) :=
  ⟨by decide, by decide, by decide,
    (worker_state_machine_graceful_exit
      { queue := [], closed := true, workers := [WStatus.idle],
        counter := 0, submitted := 0, dequeuedLog := [] }
      { queue := [], closed := true, workers := [WStatus.terminated],
        counter := 0, submitted := 0, dequeuedLog := [] }
      (Label.terminate 0) 0 WStatus.idle WStatus.terminated
      (by decide) (by decide) (by decide)).2.2⟩

end ShirryPool
